import Mathlib

/-!
Verification of the meshage mesh protocol engine (src/src/meshage/node.go).

The Go node state and its operations are shallowly embedded: Go maps become
association lists with lookup, overwrite and delete operations that mirror the
Go map semantics (a lookup of a missing key yields the zero value, an
assignment creates the key, `delete` removes it).  The stateful methods
`union`, `intersect_locked`, `messageHandler`, `setSend`, `handleConnection`,
`dial` and `Hangup` become pure functions on a `NodeState` record; channel
effects (dispatched and forwarded messages, synthesized acks) are returned as
data.  Lock acquisition and goroutine scheduling are not modelled; every
function models the state transformation the corresponding Go code performs.
-/

namespace Meshage

/-- Message type and command constants, from the iota block of node.go. -/
def SET : Nat := 0

def BROADCAST : Nat := 1

def UNION : Nat := 2

def INTERSECTION : Nat := 3

def MESSAGE : Nat := 4

def ACK : Nat := 5

def HANDSHAKE : Nat := 6

def HANDSHAKE_SOLICITED : Nat := 7

/-- Lookup in an association list modelling a Go map; `none` models a missing
key. -/
def mlookup {α : Type} : List (String × α) → String → Option α
  | [], _ => none
  | e :: t, k => if e.1 = k then some e.2 else mlookup t k

/-- Lookup with a default, modelling a Go map read `m[k]` that yields the zero
value for a missing key. -/
def mlookupD {α : Type} (m : List (String × α)) (k : String) (d : α) : α :=
  (mlookup m k).getD d

/-- Assignment `m[k] = v` on a Go map: overwrite the key if present, create it
otherwise. -/
def mset {α : Type} : List (String × α) → String → α → List (String × α)
  | [], k, v => [(k, v)]
  | e :: t, k, v => if e.1 = k then (k, v) :: t else e :: mset t k v

/-- The Go builtin `delete(m, k)`. -/
def mdel {α : Type} : List (String × α) → String → List (String × α)
  | [], _ => []
  | e :: t, k => if e.1 = k then mdel t k else e :: mdel t k

/-- The key set of an association list. -/
def keys {α : Type} (m : List (String × α)) : List String :=
  m.map Prod.fst

theorem mlookup_mset_self {α : Type} (m : List (String × α)) (k : String) (v : α) :
    mlookup (mset m k v) k = some v := by
  induction m with
  | nil => simp [mlookup, mset]
  | cons e t ih =>
    by_cases h : e.1 = k
    · simp [mset, h, mlookup]
    · simp [mset, h, mlookup, ih]

theorem mlookup_mset_other {α : Type} (m : List (String × α)) (k k2 : String) (v : α)
    (h : k2 ≠ k) : mlookup (mset m k v) k2 = mlookup m k2 := by
  have hk : k ≠ k2 := Ne.symm h
  induction m with
  | nil => simp [mlookup, mset, hk]
  | cons e t ih =>
    by_cases he : e.1 = k
    · simp [mset, he, mlookup, hk, h]
    · by_cases he2 : e.1 = k2
      · simp [mset, he, mlookup, he2, h]
      · simp [mset, he, mlookup, he2, ih]

theorem mlookup_mdel_self {α : Type} (m : List (String × α)) (k : String) :
    mlookup (mdel m k) k = none := by
  induction m with
  | nil => simp [mlookup, mdel]
  | cons e t ih =>
    by_cases h : e.1 = k
    · simp [mdel, h, ih]
    · simp [mdel, h, mlookup, ih]

theorem mlookup_mdel_other {α : Type} (m : List (String × α)) (k k2 : String)
    (h : k2 ≠ k) : mlookup (mdel m k) k2 = mlookup m k2 := by
  have hk : k ≠ k2 := Ne.symm h
  induction m with
  | nil => simp [mdel]
  | cons e t ih =>
    by_cases he : e.1 = k
    · simp [mdel, he, mlookup, hk, h, ih]
    · by_cases he2 : e.1 = k2
      · simp [mdel, he, mlookup, he2, h]
      · simp [mdel, he, mlookup, he2, ih]

theorem mem_mset {α : Type} (m : List (String × α)) (k : String) (v : α)
    (e : String × α) (h : e ∈ mset m k v) : e = (k, v) ∨ e ∈ m := by
  induction m with
  | nil => simp [mset] at h; exact Or.inl h
  | cons e2 t ih =>
    by_cases he : e2.1 = k
    · simp only [mset, he, if_pos rfl] at h
      rcases List.mem_cons.1 h with h1 | h1
      · exact Or.inl h1
      · exact Or.inr (List.mem_cons_of_mem _ h1)
    · simp only [mset, if_neg he] at h
      rcases List.mem_cons.1 h with h1 | h1
      · exact Or.inr (h1 ▸ List.mem_cons_self _ _)
      · rcases ih h1 with h2 | h2
        · exact Or.inl h2
        · exact Or.inr (List.mem_cons_of_mem _ h2)

theorem mem_mdel {α : Type} (m : List (String × α)) (k : String)
    (e : String × α) (h : e ∈ mdel m k) : e ∈ m := by
  induction m with
  | nil => simp [mdel] at h
  | cons e2 t ih =>
    by_cases he : e2.1 = k
    · simp only [mdel, if_pos he] at h
      exact List.mem_cons_of_mem _ (ih h)
    · simp only [mdel, if_neg he] at h
      rcases List.mem_cons.1 h with h1 | h1
      · exact h1 ▸ List.mem_cons_self _ _
      · exact List.mem_cons_of_mem _ (ih h1)

theorem mlookup_mem {α : Type} (m : List (String × α)) (k : String) (v : α)
    (h : mlookup m k = some v) : (k, v) ∈ m := by
  induction m with
  | nil => simp [mlookup] at h
  | cons e t ih =>
    by_cases he : e.1 = k
    · simp only [mlookup, if_pos he] at h
      have : e = (k, v) := by
        cases e; cases h; cases he; rfl
      exact this ▸ List.mem_cons_self _ _
    · simp only [mlookup, if_neg he] at h
      exact List.mem_cons_of_mem _ (ih h)

theorem mlookupD_mset_self {α : Type} (m : List (String × α)) (k : String) (v d : α) :
    mlookupD (mset m k v) k d = v := by
  simp [mlookupD, mlookup_mset_self]

theorem mlookupD_mset_other {α : Type} (m : List (String × α)) (k k2 : String) (v d : α)
    (h : k2 ≠ k) : mlookupD (mset m k v) k2 d = mlookupD m k2 d := by
  simp [mlookupD, mlookup_mset_other _ _ _ _ h]

/-- The Message record of node.go; the `Body` field carries the only body
shape the node state machine itself inspects, an adjacency map. -/
structure Msg where
  MessageType : Nat
  Recipients : List String
  Source : String
  CurrentRoute : List String
  ID : Nat
  Command : Nat
  Body : List (String × List String)
deriving DecidableEq

/-- The ack record of node.go; a `none` error means a positive ack. -/
structure AckRec where
  Recipient : String
  Err : Option String
deriving DecidableEq

/-- The mutable state of a Node: name, degree, adjacency map, the two
sequence tables, the route table, and the client registry (each client
session is represented by a numeric tag so overwrites are observable). -/
structure NodeState where
  name : String
  degree : Nat
  mesh : List (String × List String)
  setSequences : List (String × Nat)
  broadcastSequences : List (String × Nat)
  routes : List (String × String)
  clients : List (String × Nat)
deriving DecidableEq

/-- Lexicographic comparison of character lists; since UTF-8 encoding
preserves code-point order, this is the byte-wise string comparison Go's
`sort.Strings` uses. -/
def charsLt : List Char → List Char → Bool
  | [], [] => false
  | [], _ :: _ => true
  | _ :: _, [] => false
  | x :: xs, y :: ys => if x < y then true else if y < x then false else charsLt xs ys

/-- Go's `<` on strings. -/
def strLt (a b : String) : Bool := charsLt a.data b.data

/-- Strict string order as a proposition. -/
def sltP (a b : String) : Prop := strLt a b = true

/-- Non-strict string order as a proposition: `a ≤ b` iff `¬ b < a`. -/
def sleP (a b : String) : Prop := strLt b a = false

instance decSltP : DecidableRel sltP :=
  fun a b => inferInstanceAs (Decidable (strLt a b = true))

instance decSleP : DecidableRel sleP :=
  fun a b => inferInstanceAs (Decidable (strLt b a = false))

theorem charsLt_asymm : ∀ (a b : List Char), charsLt a b = true → charsLt b a = false
  | [], [] => by simp [charsLt]
  | [], _ :: _ => by simp [charsLt]
  | _ :: _, [] => by simp [charsLt]
  | x :: xs, y :: ys => by
    intro h
    by_cases h1 : x < y
    · have h2 : ¬ y < x := lt_asymm h1
      simp [charsLt, h1, h2]
    · by_cases h2 : y < x
      · simp [charsLt, h1, h2] at h
      · rw [charsLt, if_neg h1, if_neg h2] at h
        rw [charsLt, if_neg h2, if_neg h1]
        exact charsLt_asymm xs ys h

theorem charsLt_conn : ∀ (a b : List Char), charsLt a b = false → charsLt b a = false →
    a = b
  | [], [] => by simp
  | [], _ :: _ => by simp [charsLt]
  | _ :: _, [] => by simp [charsLt]
  | x :: xs, y :: ys => by
    intro h1 h2
    by_cases hx : x < y
    · simp [charsLt, hx] at h1
    · by_cases hy : y < x
      · simp [charsLt, hy] at h2
      · rw [charsLt, if_neg hx, if_neg hy] at h1
        rw [charsLt, if_neg hy, if_neg hx] at h2
        have hxy : x = y := le_antisymm (not_lt.1 hy) (not_lt.1 hx)
        rw [hxy, charsLt_conn xs ys h1 h2]

theorem charsLt_trans : ∀ (a b c : List Char), charsLt a b = true → charsLt b c = true →
    charsLt a c = true
  | [], [], _ => by simp [charsLt]
  | [], _ :: _, [] => by simp [charsLt]
  | [], _ :: _, _ :: _ => by simp [charsLt]
  | _ :: _, [], _ => by simp [charsLt]
  | _ :: _, _ :: _, [] => by simp [charsLt]
  | x :: xs, y :: ys, z :: zs => by
    intro h1 h2
    by_cases hxy : x < y
    · by_cases hyz : y < z
      · have : x < z := lt_trans hxy hyz
        simp [charsLt, this]
      · by_cases hzy : z < y
        · simp [charsLt, hyz, hzy] at h2
        · have : y = z := le_antisymm (not_lt.1 hzy) (not_lt.1 hyz)
          subst this
          simp [charsLt, hxy]
    · by_cases hyx : y < x
      · simp [charsLt, hxy, hyx] at h1
      · have hxy2 : x = y := le_antisymm (not_lt.1 hyx) (not_lt.1 hxy)
        subst hxy2
        rw [charsLt, if_neg hxy, if_neg hyx] at h1
        by_cases hyz : x < z
        · simp [charsLt, hyz]
        · by_cases hzy : z < x
          · simp [charsLt, hyz, hzy] at h2
          · rw [charsLt, if_neg hyz, if_neg hzy] at h2
            rw [charsLt, if_neg hyz, if_neg hzy]
            exact charsLt_trans xs ys zs h1 h2

theorem str_ext {a b : String} (h : a.data = b.data) : a = b := by
  cases a
  cases b
  cases h
  rfl

theorem sltP_asymm {a b : String} (h : sltP a b) : ¬ sltP b a := by
  rw [sltP, strLt] at h ⊢
  rw [charsLt_asymm _ _ h]
  simp

theorem sltP_irrefl (a : String) : ¬ sltP a a :=
  fun h => sltP_asymm h h

theorem sltP_conn {a b : String} (h1 : ¬ sltP a b) (h2 : ¬ sltP b a) : a = b := by
  rw [sltP, strLt, Bool.not_eq_true] at h1 h2
  exact str_ext (charsLt_conn a.data b.data h1 h2)

theorem sltP_trans {a b c : String} (h1 : sltP a b) (h2 : sltP b c) : sltP a c := by
  rw [sltP, strLt] at h1 h2 ⊢
  exact charsLt_trans _ _ _ h1 h2

theorem sleP_of_not_slt {a b : String} (h : ¬ sltP b a) : sleP a b := by
  rw [sltP, Bool.not_eq_true] at h
  rw [sleP]
  exact h

theorem not_slt_of_sleP {a b : String} (h : sleP a b) : ¬ sltP b a := by
  rw [sleP] at h
  rw [sltP, h]
  simp

theorem sltP_of_sleP_ne {a b : String} (h : sleP a b) (hne : a ≠ b) : sltP a b := by
  by_contra hc
  exact hne (sltP_conn hc (not_slt_of_sleP h))

theorem sltP_of_sltP_of_sleP {a b c : String} (h1 : sltP a b) (h2 : sleP b c) :
    sltP a c := by
  by_cases hbc : sltP b c
  · exact sltP_trans h1 hbc
  · rw [sltP_conn hbc (not_slt_of_sleP h2)] at h1
    exact h1

instance : IsTotal String sleP where
  total a b := by
    by_cases h : sltP b a
    · exact Or.inr (sleP_of_not_slt (sltP_asymm h))
    · exact Or.inl (sleP_of_not_slt h)

instance : IsTrans String sleP where
  trans a b c h1 h2 := by
    apply sleP_of_not_slt
    intro hca
    by_cases hab : sltP a b
    · exact not_slt_of_sleP h2 (sltP_trans hca hab)
    · rw [sltP_conn hab (not_slt_of_sleP h1)] at hca
      exact not_slt_of_sleP h2 hca

/-- sort.Strings: ascending sort of a string slice. -/
def sortStrings (l : List String) : List String :=
  List.insertionSort sleP l

/-- The duplicate-elimination loop of `union`: each element is kept unless it
equals the last element kept, which for the preceding element always holds,
so the loop drops exactly the adjacent duplicates. -/
def dedupAdj : List String → List String
  | [] => []
  | [x] => [x]
  | x :: y :: t => if x = y then dedupAdj (y :: t) else x :: dedupAdj (y :: t)

/-- The inner removal loop of `intersect_locked`: keep the elements of `xs`
not found in `vs`. -/
def removeAll (xs vs : List String) : List String :=
  xs.filter (fun x => decide (¬ x ∈ vs))

theorem mem_removeAll (xs vs : List String) (x : String) :
    x ∈ removeAll xs vs ↔ x ∈ xs ∧ ¬ x ∈ vs := by
  rw [removeAll, List.mem_filter]
  simp

theorem sortStrings_pairwise (l : List String) : (sortStrings l).Pairwise sleP :=
  List.sorted_insertionSort sleP l

theorem mem_sortStrings (l : List String) (x : String) :
    x ∈ sortStrings l ↔ x ∈ l :=
  (List.perm_insertionSort sleP l).mem_iff

theorem sortStrings_ne_nil (l : List String) (h : l ≠ []) : sortStrings l ≠ [] := by
  intro hc
  apply h
  have := (List.perm_insertionSort sleP l).length_eq
  rw [sortStrings] at hc
  rw [hc] at this
  exact List.eq_nil_of_length_eq_zero this.symm

theorem mem_dedupAdj (l : List String) (x : String) : x ∈ dedupAdj l ↔ x ∈ l := by
  induction l with
  | nil => simp [dedupAdj]
  | cons a t ih =>
    cases t with
    | nil => simp [dedupAdj]
    | cons b t2 =>
      by_cases hab : a = b
      · subst hab
        rw [dedupAdj, if_pos rfl]
        constructor
        · intro h
          exact List.mem_cons_of_mem _ (ih.1 h)
        · intro h
          rcases List.mem_cons.1 h with h1 | h1
          · exact ih.2 (h1 ▸ List.mem_cons_self _ _)
          · exact ih.2 h1
      · rw [dedupAdj, if_neg hab]
        constructor
        · intro h
          rcases List.mem_cons.1 h with h1 | h1
          · exact h1 ▸ List.mem_cons_self _ _
          · exact List.mem_cons_of_mem _ (ih.1 h1)
        · intro h
          rcases List.mem_cons.1 h with h1 | h1
          · exact h1 ▸ List.mem_cons_self _ _
          · exact List.mem_cons_of_mem _ (ih.2 h1)

theorem dedupAdj_pairwise (l : List String) (h : l.Pairwise sleP) :
    (dedupAdj l).Pairwise sltP := by
  induction l with
  | nil => simp [dedupAdj]
  | cons a t ih =>
    cases t with
    | nil => simp [dedupAdj]
    | cons b t2 =>
      rcases List.pairwise_cons.1 h with ⟨ha, h2⟩
      by_cases hab : a = b
      · rw [dedupAdj, if_pos hab]
        exact ih h2
      · rw [dedupAdj, if_neg hab]
        refine List.pairwise_cons.2 ⟨?_, ih h2⟩
        intro z hz
        have hz2 : z ∈ b :: t2 := (mem_dedupAdj _ _).1 hz
        have hb : sltP a b := sltP_of_sleP_ne (ha b (List.mem_cons_self _ _)) hab
        rcases List.mem_cons.1 hz2 with h1 | h1
        · exact h1 ▸ hb
        · exact sltP_of_sltP_of_sleP hb ((List.pairwise_cons.1 h2).1 z h1)

theorem dedupAdj_ne_nil (l : List String) (h : l ≠ []) : dedupAdj l ≠ [] := by
  induction l with
  | nil => exact absurd rfl h
  | cons a t ih =>
    cases t with
    | nil => simp [dedupAdj]
    | cons b t2 =>
      by_cases hab : a = b
      · rw [dedupAdj, if_pos hab]
        exact ih (List.cons_ne_nil _ _)
      · rw [dedupAdj, if_neg hab]
        exact List.cons_ne_nil _ _

theorem pairwise_dedup_sort (l : List String) :
    (dedupAdj (sortStrings l)).Pairwise sltP :=
  dedupAdj_pairwise _ (sortStrings_pairwise l)

theorem mem_dedup_sort (l : List String) (x : String) :
    x ∈ dedupAdj (sortStrings l) ↔ x ∈ l :=
  (mem_dedupAdj _ _).trans (mem_sortStrings _ _)

/-- Two strictly sorted string lists with the same members are equal. -/
theorem eq_of_pairwise_lt (l1 l2 : List String)
    (h1 : l1.Pairwise sltP) (h2 : l2.Pairwise sltP)
    (hm : ∀ x, x ∈ l1 ↔ x ∈ l2) : l1 = l2 := by
  induction l1 generalizing l2 with
  | nil =>
    cases l2 with
    | nil => rfl
    | cons y t2 => exact absurd ((hm y).2 (List.mem_cons_self _ _)) (List.not_mem_nil y)
  | cons x t1 ih =>
    cases l2 with
    | nil => exact absurd ((hm x).1 (List.mem_cons_self _ _)) (List.not_mem_nil x)
    | cons y t2 =>
      rcases List.pairwise_cons.1 h1 with ⟨hx1, ht1⟩
      rcases List.pairwise_cons.1 h2 with ⟨hy2, ht2⟩
      have hxy : x = y := by
        rcases List.mem_cons.1 ((hm x).1 (List.mem_cons_self _ _)) with h | h
        · exact h
        · rcases List.mem_cons.1 ((hm y).2 (List.mem_cons_self _ _)) with h3 | h3
          · exact h3.symm
          · exact absurd (hx1 y h3) (sltP_asymm (hy2 x h))
      subst hxy
      have htm : ∀ z, z ∈ t1 ↔ z ∈ t2 := by
        intro z
        constructor
        · intro hz
          rcases List.mem_cons.1 ((hm z).1 (List.mem_cons_of_mem _ hz)) with h | h
          · subst h
            exact absurd (hx1 z hz) (sltP_irrefl z)
          · exact h
        · intro hz
          rcases List.mem_cons.1 ((hm z).2 (List.mem_cons_of_mem _ hz)) with h | h
          · subst h
            exact absurd (hy2 z hz) (sltP_irrefl z)
          · exact h
      rw [ih t2 ht1 ht2 htm]

/-- One iteration of the merge loop of `union`: append the fragment row to the
local row, sort it, and drop adjacent duplicates.  The assignment creates the
key when it was absent, exactly as the Go map assignment does. -/
def mergeRow (acc : List (String × List String)) (e : String × List String) :
    List (String × List String) :=
  mset acc e.1 (dedupAdj (sortStrings (mlookupD acc e.1 [] ++ e.2)))

/-- The merge loop of `union` over every entry of the fragment. -/
def unionMerge (mesh m : List (String × List String)) : List (String × List String) :=
  m.foldl mergeRow mesh

/-- One iteration of the registry check of `union`: a neighbor of the local
node with no client session is recorded in the correcting intersection map,
on the local row and on its own row. -/
def correctionStep (n : String) (clients : List (String × Nat))
    (im : List (String × List String)) (v : String) : List (String × List String) :=
  if (mlookup clients v).isSome = true then im
  else mset (mset im n (mlookupD im n [] ++ [v])) v (mlookupD im v [] ++ [n])

/-- The correcting intersection map `union` builds from the merged local row
and the client registry. -/
def correctionMesh (n : String) (selfRow : List String)
    (clients : List (String × Nat)) : List (String × List String) :=
  selfRow.foldl (correctionStep n clients) []

/-- broadcastID: read the node's own broadcast sequence number and increment
it, returning the read value. -/
def broadcastID (st : NodeState) : Nat × NodeState :=
  (mlookupD st.broadcastSequences st.name 0,
   { st with broadcastSequences := mset st.broadcastSequences st.name (mlookupD st.broadcastSequences st.name 0 + 1) })

/-- One iteration of `intersect_locked`: remove the named neighbors from the
row of `e.1`; if the row becomes empty, delete the key and both of its
sequence-table entries.  The Go code first assigns the filtered row and then
re-reads it for the emptiness check, which this mirrors. -/
def intersectRow (st : NodeState) (e : String × List String) : NodeState :=
  if removeAll (mlookupD st.mesh e.1 []) e.2 = [] then
    { st with
      mesh := mdel (mset st.mesh e.1 (removeAll (mlookupD st.mesh e.1 []) e.2)) e.1,
      setSequences := mdel st.setSequences e.1,
      broadcastSequences := mdel st.broadcastSequences e.1 }
  else
    { st with mesh := mset st.mesh e.1 (removeAll (mlookupD st.mesh e.1 []) e.2) }

/-- intersect_locked: remove the listed edges for every entry of the input
map. -/
def intersect_locked (st : NodeState) (m : List (String × List String)) : NodeState :=
  m.foldl intersectRow st

/-- intersect: the public removal operation; it takes the mesh lock and runs
`intersect_locked`, so its state effect is the same. -/
def intersect (st : NodeState) (m : List (String × List String)) : NodeState :=
  intersect_locked st m

/-- union: merge the fragment into the mesh (sorting and deduplicating every
touched row), then compare the merged local row with the client registry;
when a discrepancy is found, apply the correcting intersection locally and
bump the broadcast sequence number for the correction broadcast. -/
def union (st : NodeState) (m : List (String × List String)) : NodeState :=
  if correctionMesh st.name (mlookupD (unionMerge st.mesh m) st.name []) st.clients = [] then
    { st with mesh := unionMerge st.mesh m }
  else
    (broadcastID (intersect_locked { st with mesh := unionMerge st.mesh m }
      (correctionMesh st.name (mlookupD (unionMerge st.mesh m) st.name []) st.clients))).2

theorem unionMerge_nil (mesh : List (String × List String)) :
    unionMerge mesh [] = mesh := rfl

theorem unionMerge_cons (mesh : List (String × List String))
    (e : String × List String) (t : List (String × List String)) :
    unionMerge mesh (e :: t) = unionMerge (mergeRow mesh e) t := rfl

theorem mlookup_unionMerge_not_mem (mesh m : List (String × List String))
    (k : String) (h : k ∉ keys m) :
    mlookup (unionMerge mesh m) k = mlookup mesh k := by
  induction m generalizing mesh with
  | nil => rfl
  | cons e t ih =>
    have hk : k ∉ keys t := by
      intro hc
      exact h (List.mem_cons_of_mem _ hc)
    have he : k ≠ e.1 := by
      intro hc
      exact h (hc ▸ List.mem_cons_self _ _)
    rw [unionMerge_cons, ih _ hk, mergeRow, mlookup_mset_other _ _ _ _ he]

theorem mem_mlookupD_unionMerge (mesh m : List (String × List String))
    (k : String) (x : String) :
    x ∈ mlookupD (unionMerge mesh m) k [] ↔
      x ∈ mlookupD mesh k [] ∨ ∃ vs, (k, vs) ∈ m ∧ x ∈ vs := by
  induction m generalizing mesh with
  | nil =>
    simp [unionMerge_nil]
  | cons e t ih =>
    rw [unionMerge_cons, ih]
    by_cases hk : k = e.1
    · subst hk
      rw [mergeRow, mlookupD_mset_self]
      rw [mem_dedup_sort, List.mem_append]
      constructor
      · rintro ((h | h) | ⟨vs, hvs, hx⟩)
        · exact Or.inl h
        · exact Or.inr ⟨e.2, List.mem_cons_self _ _, h⟩
        · exact Or.inr ⟨vs, List.mem_cons_of_mem _ hvs, hx⟩
      · rintro (h | ⟨vs, hvs, hx⟩)
        · exact Or.inl (Or.inl h)
        · rcases List.mem_cons.1 hvs with h1 | h1
          · refine Or.inl (Or.inr ?_)
            have : vs = e.2 := congrArg Prod.snd h1
            exact this ▸ hx
          · exact Or.inr ⟨vs, h1, hx⟩
    · rw [mergeRow, mlookupD_mset_other _ _ _ _ _ (fun hc => hk hc)]
      constructor
      · rintro (h | ⟨vs, hvs, hx⟩)
        · exact Or.inl h
        · exact Or.inr ⟨vs, List.mem_cons_of_mem _ hvs, hx⟩
      · rintro (h | ⟨vs, hvs, hx⟩)
        · exact Or.inl h
        · rcases List.mem_cons.1 hvs with h1 | h1
          · exact absurd (congrArg Prod.fst h1) hk
          · exact Or.inr ⟨vs, h1, hx⟩

theorem mlookup_unionMerge_isSome (mesh m : List (String × List String))
    (k : String) (h : k ∈ keys m) :
    (mlookup (unionMerge mesh m) k).isSome = true := by
  induction m generalizing mesh with
  | nil => simp [keys] at h
  | cons e t ih =>
    by_cases hk : k ∈ keys t
    · rw [unionMerge_cons]
      exact ih _ hk
    · have he : k = e.1 := by
        rcases List.mem_cons.1 h with h1 | h1
        · exact h1
        · exact absurd h1 hk
      rw [unionMerge_cons, mlookup_unionMerge_not_mem _ _ _ hk, mergeRow,
        he, mlookup_mset_self]
      rfl

theorem mlookup_unionMerge_pairwise (mesh m : List (String × List String))
    (k : String) (h : k ∈ keys m) (l : List String)
    (hl : mlookup (unionMerge mesh m) k = some l) :
    l.Pairwise sltP := by
  induction m generalizing mesh with
  | nil => simp [keys] at h
  | cons e t ih =>
    by_cases hk : k ∈ keys t
    · rw [unionMerge_cons] at hl
      exact ih _ hk hl
    · have he : k = e.1 := by
        rcases List.mem_cons.1 h with h1 | h1
        · exact h1
        · exact absurd h1 hk
      rw [unionMerge_cons, mlookup_unionMerge_not_mem _ _ _ hk, mergeRow,
        he, mlookup_mset_self] at hl
      cases hl
      exact pairwise_dedup_sort _

/-- Invariant: every adjacency list stored in the mesh is strictly sorted,
i.e. sorted in ascending order and duplicate-free. -/
def InvSorted (mesh : List (String × List String)) : Prop :=
  ∀ e ∈ mesh, e.2.Pairwise sltP

/-- Invariant: no key of the mesh maps to an empty adjacency list. -/
def NoEmptyRow (mesh : List (String × List String)) : Prop :=
  ∀ e ∈ mesh, e.2 ≠ []

instance decInvSorted (mesh : List (String × List String)) : Decidable (InvSorted mesh) :=
  inferInstanceAs (Decidable (∀ e ∈ mesh, e.2.Pairwise sltP))

instance decNoEmptyRow (mesh : List (String × List String)) : Decidable (NoEmptyRow mesh) :=
  inferInstanceAs (Decidable (∀ e ∈ mesh, e.2 ≠ []))

theorem invSorted_mset (mesh : List (String × List String)) (k : String)
    (v : List String) (h : InvSorted mesh) (hv : v.Pairwise sltP) :
    InvSorted (mset mesh k v) := by
  intro e he
  rcases mem_mset _ _ _ _ he with h1 | h1
  · cases h1
    exact hv
  · exact h e h1

theorem invSorted_mdel (mesh : List (String × List String)) (k : String)
    (h : InvSorted mesh) : InvSorted (mdel mesh k) :=
  fun e he => h e (mem_mdel _ _ _ he)

theorem invSorted_lookupD (mesh : List (String × List String)) (k : String)
    (h : InvSorted mesh) : (mlookupD mesh k []).Pairwise sltP := by
  rw [mlookupD]
  cases hl : mlookup mesh k with
  | none => simp
  | some l =>
    simp only [Option.getD_some]
    exact h (k, l) (mlookup_mem _ _ _ hl)

theorem invSorted_unionMerge (mesh m : List (String × List String))
    (h : InvSorted mesh) : InvSorted (unionMerge mesh m) := by
  induction m generalizing mesh with
  | nil => exact h
  | cons e t ih =>
    rw [unionMerge_cons]
    exact ih _ (invSorted_mset _ _ _ h (pairwise_dedup_sort _))

theorem invSorted_intersectRow (st : NodeState) (e : String × List String)
    (h : InvSorted st.mesh) : InvSorted (intersectRow st e).mesh := by
  rw [intersectRow]
  have hnv : (removeAll (mlookupD st.mesh e.1 []) e.2).Pairwise sltP := by
    rw [removeAll]
    exact (invSorted_lookupD _ _ h).sublist (List.filter_sublist _)
  split
  · exact invSorted_mdel _ _ (invSorted_mset _ _ _ h hnv)
  · exact invSorted_mset _ _ _ h hnv

theorem invSorted_intersect_locked (st : NodeState) (m : List (String × List String))
    (h : InvSorted st.mesh) : InvSorted (intersect_locked st m).mesh := by
  induction m generalizing st with
  | nil => exact h
  | cons e t ih => exact ih _ (invSorted_intersectRow _ _ h)

theorem broadcastID_mesh (st : NodeState) : (broadcastID st).2.mesh = st.mesh := rfl

theorem noEmptyRow_unionMerge (mesh m : List (String × List String))
    (h : NoEmptyRow mesh) (hm : ∀ e ∈ m, e.2 ≠ ([] : List String)) :
    NoEmptyRow (unionMerge mesh m) := by
  induction m generalizing mesh with
  | nil => exact h
  | cons e t ih =>
    rw [unionMerge_cons]
    refine ih _ ?_ (fun e2 he2 => hm e2 (List.mem_cons_of_mem _ he2))
    intro e2 he2
    rcases mem_mset _ _ _ _ he2 with h1 | h1
    · cases h1
      apply dedupAdj_ne_nil
      apply sortStrings_ne_nil
      intro hc
      rcases List.append_eq_nil.1 hc with ⟨h3, h4⟩
      exact hm e (List.mem_cons_self _ _) h4
    · exact h e2 h1

theorem mem_mdel_key_ne {α : Type} (m : List (String × α)) (k : String)
    (e : String × α) (h : e ∈ mdel m k) : e.1 ≠ k := by
  induction m with
  | nil => simp [mdel] at h
  | cons e2 t ih =>
    by_cases he : e2.1 = k
    · rw [mdel, if_pos he] at h
      exact ih h
    · rw [mdel, if_neg he] at h
      rcases List.mem_cons.1 h with h1 | h1
      · exact h1 ▸ he
      · exact ih h1

theorem noEmptyRow_intersectRow (st : NodeState) (e : String × List String)
    (h : NoEmptyRow st.mesh) : NoEmptyRow (intersectRow st e).mesh := by
  rw [intersectRow]
  split
  · intro e2 he2
    have hne := mem_mdel_key_ne _ _ _ he2
    rcases mem_mset _ _ _ _ (mem_mdel _ _ _ he2) with h1 | h1
    · exact absurd (congrArg Prod.fst h1) hne
    · exact h e2 h1
  · intro e2 he2
    rcases mem_mset _ _ _ _ he2 with h1 | h1
    · cases h1
      assumption
    · exact h e2 h1

theorem noEmptyRow_intersect_locked (st : NodeState) (m : List (String × List String))
    (h : NoEmptyRow st.mesh) : NoEmptyRow (intersect_locked st m).mesh := by
  induction m generalizing st with
  | nil => exact h
  | cons e t ih => exact ih _ (noEmptyRow_intersectRow _ _ h)

theorem invSorted_union (st : NodeState) (m : List (String × List String))
    (h : InvSorted st.mesh) : InvSorted (union st m).mesh := by
  rw [union]
  split
  · exact invSorted_unionMerge _ _ h
  · rw [broadcastID_mesh]
    exact invSorted_intersect_locked _ _ (invSorted_unionMerge _ _ h)

theorem noEmptyRow_union (st : NodeState) (m : List (String × List String))
    (hst : NoEmptyRow st.mesh) (hm : ∀ e ∈ m, e.2 ≠ ([] : List String)) :
    NoEmptyRow (union st m).mesh := by
  rw [union]
  split
  · exact noEmptyRow_unionMerge _ _ hst hm
  · rw [broadcastID_mesh]
    exact noEmptyRow_intersect_locked _ _ (noEmptyRow_unionMerge _ _ hst hm)

theorem intersect_single (st : NodeState) (e : String × List String) :
    intersect st [e] = intersectRow st e := rfl

/-- C1: after every application of the union operation to any adjacency
fragment, every neighbor list present in the node's mesh (for every key) is
sorted in ascending order and contains no duplicate entries; formally,
`union` preserves the strict-sortedness invariant `InvSorted`, which holds of
the empty initial mesh and is likewise preserved by removal, so it holds
after every union. -/
theorem union_preserves_sorted_nodup (st : NodeState) (m : List (String × List String))
    (h : InvSorted st.mesh) : InvSorted (union st m).mesh :=
  invSorted_union st m h

def stC1 : NodeState :=
  ⟨"a", 0, [("a", ["b"]), ("b", ["a"])], [("a", 1)], [("a", 1)], [], [("b", 1)]⟩

theorem union_preserves_sorted_nodup_witness :
    InvSorted stC1.mesh ∧ InvSorted (union stC1 [("c", ["a", "c", "a"])]).mesh :=
  ⟨by decide, union_preserves_sorted_nodup stC1 [("c", ["a", "c", "a"])] (by decide)⟩

/-- C2: for every mesh state and every input map of the form `[(k, [v])]`,
after the intersection operation `v` is not an element of the row of `k`;
and whenever the removal leaves that row empty, `k` is absent from the mesh
and from both the set-sequence and broadcast-sequence tables. -/
theorem intersect_removes_value (st : NodeState) (k v : String) :
    v ∉ mlookupD (intersect st [(k, [v])]).mesh k [] ∧
    (removeAll (mlookupD st.mesh k []) [v] = [] →
      mlookup (intersect st [(k, [v])]).mesh k = none ∧
      mlookup (intersect st [(k, [v])]).setSequences k = none ∧
      mlookup (intersect st [(k, [v])]).broadcastSequences k = none) := by
  rw [intersect_single, intersectRow]
  by_cases hnv : removeAll (mlookupD st.mesh k []) [v] = []
  · rw [if_pos hnv]
    refine ⟨?_, fun _ => ⟨?_, ?_, ?_⟩⟩
    · rw [mlookupD, mlookup_mdel_self]
      simp
    · exact mlookup_mdel_self _ _
    · exact mlookup_mdel_self _ _
    · exact mlookup_mdel_self _ _
  · rw [if_neg hnv]
    refine ⟨?_, fun hc => absurd hc hnv⟩
    rw [mlookupD, mlookup_mset_self]
    intro hc
    exact ((mem_removeAll _ _ _).1 hc).2 (List.mem_cons_self _ _)

def stC2 : NodeState :=
  ⟨"a", 0, [("x", ["y"])], [("x", 3)], [("x", 4)], [], []⟩

theorem intersect_removes_value_witness :
    "y" ∉ mlookupD (intersect stC2 [("x", ["y"])]).mesh "x" [] ∧
    mlookup (intersect stC2 [("x", ["y"])]).mesh "x" = none ∧
    mlookup (intersect stC2 [("x", ["y"])]).setSequences "x" = none ∧
    mlookup (intersect stC2 [("x", ["y"])]).broadcastSequences "x" = none :=
  ⟨(intersect_removes_value stC2 "x" "y").1,
   (intersect_removes_value stC2 "x" "y").2 (by decide)⟩

def stC8 : NodeState := ⟨"a", 0, [], [("a", 1)], [("a", 1)], [], []⟩

/-- C8 counterexample: starting from a mesh with no empty rows, a union whose
fragment maps the key `b` to an empty list leaves the mesh with the key `b`
mapped to the empty list, so it is not the case that after every union no
key maps to an empty neighbor list. -/
theorem union_leaves_empty_row :
    NoEmptyRow stC8.mesh ∧ mlookup (union stC8 [("b", [])]).mesh "b" = some [] := by
  constructor
  · decide
  · decide

/-- C8 (amended): after every intersection operation no key of the mesh maps
to an empty neighbor list (given that none did before), and a key of a
single-entry input whose row is removed loses both sequence entries with it;
after a union the same holds provided every neighbor list of the fragment is
non-empty — a union given a key with an empty fragment list may leave that
key in the mesh with an empty list. -/
theorem no_empty_rows_preserved (st : NodeState) (m mi : List (String × List String))
    (k : String) (vs : List String)
    (hst : NoEmptyRow st.mesh) (hm : ∀ e ∈ m, e.2 ≠ ([] : List String)) :
    NoEmptyRow (union st m).mesh ∧ NoEmptyRow (intersect st mi).mesh ∧
    (mlookup (intersect st [(k, vs)]).mesh k = none →
      mlookup (intersect st [(k, vs)]).setSequences k = none ∧
      mlookup (intersect st [(k, vs)]).broadcastSequences k = none) := by
  refine ⟨noEmptyRow_union st m hst hm, noEmptyRow_intersect_locked st mi hst, ?_⟩
  rw [intersect_single, intersectRow]
  by_cases hnv : removeAll (mlookupD st.mesh k []) vs = []
  · rw [if_pos hnv]
    exact fun _ => ⟨mlookup_mdel_self _ _, mlookup_mdel_self _ _⟩
  · rw [if_neg hnv]
    intro hc
    rw [mlookup_mset_self] at hc
    cases hc

def stC8w : NodeState :=
  ⟨"a", 0, [("x", ["y"]), ("a", ["b"])], [("x", 3)], [("x", 4)], [], [("b", 7)]⟩

theorem no_empty_rows_preserved_witness :
    NoEmptyRow (union stC8w [("a", ["b", "c"])]).mesh ∧
    NoEmptyRow (intersect stC8w [("x", ["z"])]).mesh ∧
    (mlookup (intersect stC8w [("x", ["y"])]).setSequences "x" = none ∧
      mlookup (intersect stC8w [("x", ["y"])]).broadcastSequences "x" = none) :=
  ⟨(no_empty_rows_preserved stC8w [("a", ["b", "c"])] [("x", ["z"])] "x" ["y"]
      (by decide) (by decide)).1,
   (no_empty_rows_preserved stC8w [("a", ["b", "c"])] [("x", ["z"])] "x" ["y"]
      (by decide) (by decide)).2.1,
   (no_empty_rows_preserved stC8w [("a", ["b", "c"])] [("x", ["z"])] "x" ["y"]
      (by decide) (by decide)).2.2 (by decide)⟩

/-- C9: for a key `k` of the input map that is absent from the local mesh,
the intersection operation leaves the adjacency map unchanged (`k` remains
absent and every other key keeps its row), yet deletes the entries of `k`
from both the set-sequence and broadcast-sequence tables. -/
theorem intersect_absent_key_frame (st : NodeState) (k : String) (vs : List String)
    (h : mlookup st.mesh k = none) :
    (∀ k2, mlookup (intersect st [(k, vs)]).mesh k2 = mlookup st.mesh k2) ∧
    mlookup (intersect st [(k, vs)]).setSequences k = none ∧
    mlookup (intersect st [(k, vs)]).broadcastSequences k = none := by
  have hD : mlookupD st.mesh k [] = [] := by
    rw [mlookupD, h]
    rfl
  have hnv : removeAll (mlookupD st.mesh k []) vs = [] := by
    rw [hD]
    rfl
  rw [intersect_single, intersectRow, if_pos hnv]
  refine ⟨?_, mlookup_mdel_self _ _, mlookup_mdel_self _ _⟩
  intro k2
  by_cases hk2 : k2 = k
  · subst hk2
    rw [mlookup_mdel_self, h]
  · rw [mlookup_mdel_other _ _ _ hk2, mlookup_mset_other _ _ _ _ hk2]

def stC9 : NodeState :=
  ⟨"a", 0, [("a", ["b"])], [("z", 3), ("a", 1)], [("z", 9), ("a", 1)], [], []⟩

theorem intersect_absent_key_frame_witness :
    mlookup (intersect stC9 [("z", ["q"])]).mesh "a" = mlookup stC9.mesh "a" ∧
    mlookup (intersect stC9 [("z", ["q"])]).mesh "z" = mlookup stC9.mesh "z" ∧
    mlookup (intersect stC9 [("z", ["q"])]).setSequences "z" = none ∧
    mlookup (intersect stC9 [("z", ["q"])]).broadcastSequences "z" = none :=
  ⟨(intersect_absent_key_frame stC9 "z" ["q"] (by decide)).1 "a",
   (intersect_absent_key_frame stC9 "z" ["q"] (by decide)).1 "z",
   (intersect_absent_key_frame stC9 "z" ["q"] (by decide)).2.1,
   (intersect_absent_key_frame stC9 "z" ["q"] (by decide)).2.2⟩

/-- The channel effects of one iteration of the message router: the message
copies handed to the local handler, the message handed to the set-send path,
and the message handed to the broadcast path. -/
structure StepEffects where
  dispatched : List Msg
  forwardedSet : Option Msg
  forwardedBroadcast : Option Msg
deriving DecidableEq

/-- The effects of an iteration that drops its message. -/
def noEffects : StepEffects := ⟨[], none, none⟩

/-- One iteration of messageHandler on an inbound message.  A SET (resp.
BROADCAST) message is handled only when its id is strictly greater than the
recorded sequence number of its source (a missing entry reads as 0); the
counter is then advanced to the id, the local name is appended to the route,
and for SET the recipients are partitioned: one local dispatch per occurrence
of the local name (each receiving the full recipient list, as the Go code
dispatches before reassigning Recipients) and one forwarded copy carrying the
remaining recipients; a BROADCAST is re-broadcast and dispatched locally.
Otherwise the message is dropped with no effect. -/
def messageHandlerStep (st : NodeState) (m : Msg) : NodeState × StepEffects :=
  if m.MessageType = SET then
    if mlookupD st.setSequences m.Source 0 < m.ID then
      ({ st with setSequences := mset st.setSequences m.Source m.ID },
       ⟨(({ m with CurrentRoute := m.CurrentRoute ++ [st.name] } : Msg).Recipients.filter
           (fun i => i == st.name)).map
           (fun _ => { m with CurrentRoute := m.CurrentRoute ++ [st.name] }),
        some { m with CurrentRoute := m.CurrentRoute ++ [st.name],
                      Recipients := m.Recipients.filter (fun i => !(i == st.name)) },
        none⟩)
    else (st, noEffects)
  else if m.MessageType = BROADCAST then
    if mlookupD st.broadcastSequences m.Source 0 < m.ID then
      ({ st with broadcastSequences := mset st.broadcastSequences m.Source m.ID },
       ⟨[{ m with CurrentRoute := m.CurrentRoute ++ [st.name] }],
        none,
        some { m with CurrentRoute := m.CurrentRoute ++ [st.name] }⟩)
    else (st, noEffects)
  else (st, noEffects)

/-- C4: an inbound SET or BROADCAST message whose id is at most the recorded
sequence number of its source is dropped with no side effects: the state
(sequence tables, mesh, routes, registry) is returned unchanged and nothing
is dispatched or forwarded; and only a strictly greater id advances the
counter (to the message id) and produces effects. -/
theorem router_drops_stale (st : NodeState) (m : Msg) :
    (m.MessageType = SET → m.ID ≤ mlookupD st.setSequences m.Source 0 →
      messageHandlerStep st m = (st, noEffects)) ∧
    (m.MessageType = BROADCAST → m.ID ≤ mlookupD st.broadcastSequences m.Source 0 →
      messageHandlerStep st m = (st, noEffects)) ∧
    (m.MessageType = SET → mlookupD st.setSequences m.Source 0 < m.ID →
      mlookupD (messageHandlerStep st m).1.setSequences m.Source 0 = m.ID ∧
      (messageHandlerStep st m).2 ≠ noEffects) ∧
    (m.MessageType = BROADCAST → mlookupD st.broadcastSequences m.Source 0 < m.ID →
      mlookupD (messageHandlerStep st m).1.broadcastSequences m.Source 0 = m.ID ∧
      (messageHandlerStep st m).2 ≠ noEffects) := by
  have hsb : m.MessageType = SET → ¬ m.MessageType = BROADCAST := by
    intro h hc
    rw [h] at hc
    cases hc
  refine ⟨?_, ?_, ?_, ?_⟩
  · intro ht hle
    rw [messageHandlerStep, if_pos ht, if_neg (not_lt.2 hle)]
  · intro ht hle
    rw [messageHandlerStep, if_neg (fun hc => hsb hc ht), if_pos ht,
      if_neg (not_lt.2 hle)]
  · intro ht hlt
    rw [messageHandlerStep, if_pos ht, if_pos hlt]
    refine ⟨mlookupD_mset_self _ _ _ _, ?_⟩
    intro hc
    have := congrArg StepEffects.forwardedSet hc
    simp [noEffects] at this
  · intro ht hlt
    rw [messageHandlerStep, if_neg (fun hc => hsb hc ht), if_pos ht, if_pos hlt]
    refine ⟨mlookupD_mset_self _ _ _ _, ?_⟩
    intro hc
    have := congrArg StepEffects.forwardedBroadcast hc
    simp [noEffects] at this

def stC4 : NodeState :=
  ⟨"a", 0, [], [("s", 5)], [("s", 2)], [], []⟩

def msgC4 : Msg := ⟨SET, ["a", "b"], "s", ["s"], 5, MESSAGE, []⟩

def msgC4b : Msg := ⟨BROADCAST, [], "s", ["s"], 3, MESSAGE, []⟩

theorem router_drops_stale_witness :
    messageHandlerStep stC4 msgC4 = (stC4, noEffects) ∧
    mlookupD (messageHandlerStep stC4 msgC4b).1.broadcastSequences "s" 0 = 3 :=
  ⟨(router_drops_stale stC4 msgC4).1 (by decide) (by decide),
   ((router_drops_stale stC4 msgC4b).2.2.2 (by decide) (by decide)).1⟩

/-- Hangup: look up the named client in the registry; a missing name yields
an error and no other action, a present name signals the hangup channel of
that session (the returned flag records the signal) and returns nil.  In
both cases the node state is returned unchanged, since Hangup itself mutates
nothing — the teardown happens in the session reader once the signal fires. -/
def Hangup (st : NodeState) (cl : String) : NodeState × Option String × Bool :=
  match mlookup st.clients cl with
  | none => (st, some "no such client", false)
  | some _ => (st, none, true)

/-- C10: for every peer name not present in the registry, Hangup returns a
non-nil error and leaves the registry, mesh, routes and sequence tables
unchanged (the whole state is returned as it was, with no hangup signal);
for every present peer name, Hangup returns nil. -/
theorem hangup_contract (st : NodeState) (cl : String) :
    (mlookup st.clients cl = none → Hangup st cl = (st, some "no such client", false)) ∧
    (∀ t, mlookup st.clients cl = some t → (Hangup st cl).2.1 = none) := by
  constructor
  · intro h
    rw [Hangup, h]
  · intro t h
    rw [Hangup, h]

def stC10 : NodeState :=
  ⟨"a", 0, [("a", ["b"]), ("b", ["a"])], [("a", 1)], [("a", 1)], [], [("b", 6)]⟩

theorem hangup_contract_witness :
    Hangup stC10 "z" = (stC10, some "no such client", false) ∧
    (Hangup stC10 "b").2.1 = none :=
  ⟨(hangup_contract stC10 "z").1 (by decide),
   (hangup_contract stC10 "b").2 6 (by decide)⟩

/-- The accepting side of the handshake (handleConnection): send a handshake
whose command depends on whether the registry is below degree (returned as
the second component), then install the session under whatever source name
the successfully decoded reply carries — the Go code performs no self or
duplicate check on this side before `n.clients[hs.Source] = c`.  `peerSource`
is the source name of the decoded reply and `tag` the new session; decode
failures return before the install and are not modelled. -/
def handleConnection (st : NodeState) (peerSource : String) (tag : Nat) :
    NodeState × Nat :=
  ({ st with clients := mset st.clients peerSource tag },
   if st.clients.length < st.degree then HANDSHAKE_SOLICITED else HANDSHAKE)

/-- The dialing side of the handshake: after decoding the acceptor's
handshake `hs`, reject a self connection, reject an already-registered peer,
silently drop an unsolicited link when this dial was itself solicited, and
otherwise install the session, merge the peer's adjacency map extended with
the new edge on both rows, and bump the broadcast counter for the UNION
announcement.  The returned option is the error result of dial. -/
def dial (st : NodeState) (hs : Msg) (solicited : Bool) (tag : Nat) :
    NodeState × Option String :=
  if hs.Source = st.name then (st, some "connecting to myself is not allowed")
  else if (mlookup st.clients hs.Source).isSome = true then
    (st, some "already connected")
  else if hs.Command = HANDSHAKE ∧ solicited = true then (st, none)
  else
    ((broadcastID (union { st with clients := mset st.clients hs.Source tag }
        (mset (mset hs.Body st.name (mlookupD hs.Body st.name [] ++ [hs.Source]))
          hs.Source
          (mlookupD (mset hs.Body st.name (mlookupD hs.Body st.name [] ++ [hs.Source]))
            hs.Source [] ++ [st.name])))).2,
     none)

def stC6 : NodeState := ⟨"a", 0, [], [("a", 1)], [("a", 1)], [], []⟩

/-- C6 counterexample: on the accepting side a handshake reply whose source
equals the local name is installed without any failure — after the exchange
the registry holds a session keyed by the local name, so it is not the case
that on either side a self-named peer fails with a self-connect error and no
session keyed by that name is installed. -/
theorem accept_installs_self :
    mlookup (handleConnection stC6 "a" 7).1.clients "a" = some 7 := by
  decide

/-- C6 (amended): on the dialing side a handshake whose source equals the
local name fails with the self-connect error and the state is unchanged, so
no session keyed by that name is installed; the accepting side installs the
decoded source without this check. -/
theorem dial_rejects_self (st : NodeState) (hs : Msg) (solicited : Bool) (tag : Nat)
    (h : hs.Source = st.name) :
    dial st hs solicited tag = (st, some "connecting to myself is not allowed") := by
  rw [dial, if_pos h]

def msgC6 : Msg := ⟨SET, [], "a", ["a"], 0, HANDSHAKE, []⟩

theorem dial_rejects_self_witness :
    dial stC6 msgC6 false 3 = (stC6, some "connecting to myself is not allowed") :=
  dial_rejects_self stC6 msgC6 false 3 (by decide)

def stC7 : NodeState := ⟨"a", 0, [("a", ["b"]), ("b", ["a"])], [("a", 1)], [("a", 1)], [], [("b", 1)]⟩

/-- C7 counterexample: on the accepting side a handshake reply whose source
is already registered is installed anyway, overwriting the existing session
(tag 1 becomes tag 2), so it is not the case that on either side a duplicate
peer is rejected with the registry left unmutated. -/
theorem accept_overwrites_duplicate :
    mlookup stC7.clients "b" = some 1 ∧
    mlookup (handleConnection stC7 "b" 2).1.clients "b" = some 2 := by
  constructor
  · decide
  · decide

/-- C7 (amended): on the dialing side a handshake whose source is already a
key of the registry fails with the duplicate error and the state is
unchanged, so the existing session under that name survives; the accepting
side overwrites the existing session without this check. -/
theorem dial_rejects_duplicate (st : NodeState) (hs : Msg) (solicited : Bool)
    (tag t : Nat) (hne : hs.Source ≠ st.name)
    (h : mlookup st.clients hs.Source = some t) :
    dial st hs solicited tag = (st, some "already connected") := by
  rw [dial, if_neg hne, if_pos]
  rw [h]
  rfl

def msgC7 : Msg := ⟨SET, [], "b", ["b"], 0, HANDSHAKE, []⟩

theorem dial_rejects_duplicate_witness :
    dial stC7 msgC7 false 3 = (stC7, some "already connected") ∧
    mlookup stC7.clients "b" = some 1 :=
  ⟨dial_rejects_duplicate stC7 msgC7 false 3 1 (by decide) (by decide),
   by decide⟩

/-- Total number of adjacency entries, used as the fuel bound of the
breadth-first search. -/
def sumDeg (mesh : List (String × List String)) : Nat :=
  mesh.foldl (fun a e => a + e.2.length) 0

/-- Fuel-bounded breadth-first traversal over the adjacency map.  The queue
carries pairs of a node and the first-hop neighbor through which it was
reached; the fuel bound exceeds the total number of possible enqueues. -/
def bfsLoop (mesh : List (String × List String)) (dest : String) :
    Nat → List (String × String) → List String → Option String
  | 0, _, _ => none
  | Nat.succ f, q, visited =>
    match q with
    | [] => none
    | (x, hop) :: rest =>
      if x = dest then some hop
      else if x ∈ visited then bfsLoop mesh dest f rest visited
      else bfsLoop mesh dest f
        (rest ++ (mlookupD mesh x []).map (fun y => (y, hop))) (x :: visited)

/-- Next hop toward `dest` by BFS rooted at `self`: the neighbors of `self`
seed the queue, each as its own first hop. -/
def bfsNextHop (mesh : List (String × List String)) (self dest : String) :
    Option String :=
  bfsLoop mesh dest ((mlookupD mesh self []).length + sumDeg mesh + 1)
    ((mlookupD mesh self []).map (fun y => (y, y))) [self]

/-- Modelled from the spec: `updateRoute` belongs to this repository but its
file is not among the sources (node.go only calls it); per the spec the route
table is derived by breadth-first search from this node over the adjacency
map, the next hop for a destination being the first neighbor along the
shortest path found, computed lazily when a set send needs a destination with
no route.  This model computes that next hop and stores it under the
destination; an unreachable destination leaves the table unchanged. -/
def updateRoute (st : NodeState) (dest : String) : NodeState :=
  match bfsNextHop st.mesh st.name dest with
  | some hop => { st with routes := mset st.routes dest hop }
  | none => st

/-- The error string of a missing route. -/
def noRouteErr (v : String) : String := "no route to host: " ++ v

/-- The per-recipient route check of setSend: use the routing table, and on a
miss refresh it with `updateRoute` and look again. -/
def routeFor (st : NodeState) (v : String) : NodeState × Option String :=
  match mlookup st.routes v with
  | some r => (st, some r)
  | none =>
    match mlookup (updateRoute st v).routes v with
    | some r => (updateRoute st v, some r)
    | none => (updateRoute st v, none)

/-- The recipient loop of setSend: recipients with a (possibly refreshed)
route are grouped into `route_slices` under their next hop; for each
recipient with no route an ack with the no-route error is synthesized and
pushed onto the ack channel (collected here in order). -/
def setSendLoop : NodeState → List (String × List String) → List AckRec →
    List String → NodeState × List (String × List String) × List AckRec
  | st, slices, acks, [] => (st, slices, acks)
  | st, slices, acks, v :: rest =>
    match routeFor st v with
    | (st2, some r) =>
      setSendLoop st2 (mset slices r (mlookupD slices r [] ++ [v])) acks rest
    | (st2, none) =>
      setSendLoop st2 slices (acks ++ [AckRec.mk v (some (noRouteErr v))]) rest

/-- The error-aggregation step of the ack-wait loop of setSend: an ack
carrying an error starts the composite error or appends its recipient to
it. -/
def ackFold (acc : Option String) (a : AckRec) : Option String :=
  match a.Err with
  | none => acc
  | some _ =>
    match acc with
    | none => some ("failed to send to: " ++ a.Recipient)
    | some s => some (s ++ ", " ++ a.Recipient)

/-- The ack-wait loop of setSend: read one ack per original recipient from
the ack channel (modelled as the list of acks the reads return, which
includes the synthesized no-route acks) and aggregate the errors. -/
def awaitLoop : Nat → Option String → List AckRec → Option String × List AckRec
  | 0, acc, stream => (acc, stream)
  | Nat.succ _, acc, [] => (acc, [])
  | Nat.succ i, acc, a :: rest => awaitLoop i (ackFold acc a) rest

/-- The observable outcome of a setSend call: the mutated node state (route
refreshes), the per-hop recipient groups each of which is transmitted as one
message copy to the session of its hop, the synthesized no-route acks, the
returned error, and the unread remainder of the ack stream. -/
structure SetSendResult where
  state : NodeState
  route_slices : List (String × List String)
  synthesized : List AckRec
  ret : Option String
  rest : List AckRec
deriving DecidableEq

/-- setSend: run the recipient loop, then await exactly one ack per original
recipient and aggregate their errors into the returned value.  `stream` is
the sequence of acks the channel reads return. -/
def setSend (st : NodeState) (recipients : List String) (stream : List AckRec) :
    SetSendResult :=
  { state := (setSendLoop st [] [] recipients).1,
    route_slices := (setSendLoop st [] [] recipients).2.1,
    synthesized := (setSendLoop st [] [] recipients).2.2,
    ret := (awaitLoop recipients.length none stream).1,
    rest := (awaitLoop recipients.length none stream).2 }

/-- The recipients of the erroring acks of a stream, in order. -/
def failedOf (l : List AckRec) : List String :=
  (l.filter (fun a => a.Err.isSome)).map (fun a => a.Recipient)

/-- The rendering of the composite error after its first named recipient. -/
def appendFailures (s : String) (fs : List String) : String :=
  fs.foldl (fun t r => t ++ ", " ++ r) s

theorem failedOf_cons_none (a : AckRec) (t : List AckRec) (ha : a.Err = none) :
    failedOf (a :: t) = failedOf t := by
  simp [failedOf, List.filter_cons, ha]

theorem failedOf_cons_some (a : AckRec) (t : List AckRec) (e : String)
    (ha : a.Err = some e) : failedOf (a :: t) = a.Recipient :: failedOf t := by
  simp [failedOf, List.filter_cons, ha]

theorem foldl_ackFold_some (l : List AckRec) (s : String) :
    l.foldl ackFold (some s) = some (appendFailures s (failedOf l)) := by
  induction l generalizing s with
  | nil => rfl
  | cons a t ih =>
    cases ha : a.Err with
    | none =>
      rw [List.foldl_cons]
      have h1 : ackFold (some s) a = some s := by
        rw [ackFold, ha]
      rw [h1, ih, failedOf_cons_none a t ha]
    | some e =>
      rw [List.foldl_cons]
      have h1 : ackFold (some s) a = some (s ++ ", " ++ a.Recipient) := by
        rw [ackFold, ha]
      rw [h1, ih, failedOf_cons_some a t e ha]
      rfl

theorem foldl_ackFold_none (l : List AckRec) :
    l.foldl ackFold none =
      (match failedOf l with
       | [] => none
       | f :: fs => some (appendFailures ("failed to send to: " ++ f) fs)) := by
  induction l with
  | nil => rfl
  | cons a t ih =>
    cases ha : a.Err with
    | none =>
      rw [List.foldl_cons]
      have h1 : ackFold none a = none := by
        rw [ackFold, ha]
      rw [h1, ih, failedOf_cons_none a t ha]
    | some e =>
      rw [List.foldl_cons]
      have h1 : ackFold none a = some ("failed to send to: " ++ a.Recipient) := by
        rw [ackFold, ha]
      rw [h1, foldl_ackFold_some, failedOf_cons_some a t e ha]

theorem awaitLoop_spec (n : Nat) (acc : Option String) (stream : List AckRec)
    (h : n ≤ stream.length) :
    awaitLoop n acc stream = ((stream.take n).foldl ackFold acc, stream.drop n) := by
  induction n generalizing acc stream with
  | zero => simp [awaitLoop]
  | succ i ih =>
    cases stream with
    | nil => simp at h
    | cons a t =>
      rw [awaitLoop, ih (ackFold acc a) t (Nat.succ_le_succ_iff.1 h)]
      simp

theorem routeFor_mono (st : NodeState) (v x r : String)
    (hx : mlookup st.routes x = some r) :
    mlookup (routeFor st v).1.routes x = some r := by
  rw [routeFor]
  cases hv : mlookup st.routes v with
  | some r2 => exact hx
  | none =>
    have hxv : x ≠ v := by
      intro hc
      rw [hc, hv] at hx
      cases hx
    have hupd : mlookup (updateRoute st v).routes x = some r := by
      rw [updateRoute]
      cases hb : bfsNextHop st.mesh st.name v with
      | some hop => rw [mlookup_mset_other _ _ _ _ hxv]; exact hx
      | none => exact hx
    cases hv2 : mlookup (updateRoute st v).routes v with
    | some r2 => exact hupd
    | none => exact hupd

theorem routeFor_some_self (st : NodeState) (v : String) (st2 : NodeState) (r : String)
    (h : routeFor st v = (st2, some r)) : mlookup st2.routes v = some r := by
  rw [routeFor] at h
  cases hv : mlookup st.routes v with
  | some r2 =>
    rw [hv] at h
    cases h
    exact hv
  | none =>
    rw [hv] at h
    cases hv2 : mlookup (updateRoute st v).routes v with
    | some r2 =>
      rw [hv2] at h
      cases h
      exact hv2
    | none =>
      rw [hv2] at h
      cases h

theorem setSendLoop_routes_mono (recips : List String) :
    ∀ (st : NodeState) (slices : List (String × List String)) (acks : List AckRec)
      (x r : String), mlookup st.routes x = some r →
      mlookup (setSendLoop st slices acks recips).1.routes x = some r := by
  induction recips with
  | nil => intro st slices acks x r hx; exact hx
  | cons v rest ih =>
    intro st slices acks x r hx
    have hmono := routeFor_mono st v x r hx
    rcases hr : routeFor st v with ⟨st2, ro⟩
    rw [hr] at hmono
    cases ro with
    | some r2 =>
      rw [setSendLoop, hr]
      exact ih _ _ _ _ _ hmono
    | none =>
      rw [setSendLoop, hr]
      exact ih _ _ _ _ _ hmono

theorem setSendLoop_acks_mono (recips : List String) :
    ∀ (st : NodeState) (slices : List (String × List String)) (acks : List AckRec),
      ∃ t, (setSendLoop st slices acks recips).2.2 = acks ++ t := by
  induction recips with
  | nil =>
    intro st slices acks
    exact ⟨[], by simp [setSendLoop]⟩
  | cons v rest ih =>
    intro st slices acks
    rcases hr : routeFor st v with ⟨st2, ro⟩
    cases ro with
    | some r2 =>
      rw [setSendLoop, hr]
      exact ih _ _ _
    | none =>
      rw [setSendLoop, hr]
      rcases ih st2 slices (acks ++ [AckRec.mk v (some (noRouteErr v))]) with ⟨t, ht⟩
      exact ⟨[AckRec.mk v (some (noRouteErr v))] ++ t, by rw [ht, List.append_assoc]⟩

theorem setSendLoop_synth (recips : List String) :
    ∀ (st : NodeState) (slices : List (String × List String)) (acks : List AckRec)
      (v : String), v ∈ recips →
      mlookup (setSendLoop st slices acks recips).1.routes v = none →
      AckRec.mk v (some (noRouteErr v)) ∈ (setSendLoop st slices acks recips).2.2 := by
  induction recips with
  | nil =>
    intro st slices acks v hv
    exact absurd hv (List.not_mem_nil v)
  | cons v1 rest ih =>
    intro st slices acks v hv hnone
    rcases hr : routeFor st v1 with ⟨st2, ro⟩
    rcases List.mem_cons.1 hv with hv1 | hv1
    · subst hv1
      cases ro with
      | some r2 =>
        simp only [setSendLoop, hr] at hnone
        have hself := routeFor_some_self st v st2 r2 hr
        have hmono := setSendLoop_routes_mono rest st2
          (mset slices r2 (mlookupD slices r2 [] ++ [v])) acks v r2 hself
        rw [hmono] at hnone
        cases hnone
      | none =>
        simp only [setSendLoop, hr]
        rcases setSendLoop_acks_mono rest st2 slices
          (acks ++ [AckRec.mk v (some (noRouteErr v))]) with ⟨t, ht⟩
        rw [ht]
        have : AckRec.mk v (some (noRouteErr v)) ∈
            acks ++ [AckRec.mk v (some (noRouteErr v))] := by
          simp
        exact List.mem_append_left _ this
    · cases ro with
      | some r2 =>
        simp only [setSendLoop, hr] at hnone ⊢
        exact ih _ _ _ _ hv1 hnone
      | none =>
        simp only [setSendLoop, hr] at hnone ⊢
        exact ih _ _ _ _ hv1 hnone

theorem setSendLoop_acks_err (recips : List String) :
    ∀ (st : NodeState) (slices : List (String × List String)) (acks : List AckRec),
      (∀ a ∈ acks, a.Err ≠ none) →
      ∀ a ∈ (setSendLoop st slices acks recips).2.2, a.Err ≠ none := by
  induction recips with
  | nil =>
    intro st slices acks h
    exact h
  | cons v rest ih =>
    intro st slices acks h
    rcases hr : routeFor st v with ⟨st2, ro⟩
    cases ro with
    | some r2 =>
      rw [setSendLoop, hr]
      exact ih _ _ _ h
    | none =>
      rw [setSendLoop, hr]
      refine ih _ _ _ ?_
      intro a ha
      rcases List.mem_append.1 ha with h1 | h1
      · exact h a h1
      · rcases List.mem_singleton.1 h1 with rfl
        intro hc
        cases hc

/-- C5: for every set send with recipient list `recips`, every recipient that
still has no route after the route-table refresh has an ack record carrying a
non-nil error synthesized onto the ack stream (and every synthesized ack
carries an error); the call awaits exactly `recips.length` acks from the ack
stream; and it returns nil if and only if none of the awaited acks carries an
error, otherwise a composite error naming each failed recipient in order. -/
theorem setSend_ack_contract (st : NodeState) (recips : List String)
    (stream : List AckRec) (hlen : recips.length ≤ stream.length) :
    (∀ v ∈ recips, mlookup (setSend st recips stream).state.routes v = none →
      AckRec.mk v (some (noRouteErr v)) ∈ (setSend st recips stream).synthesized) ∧
    (∀ a ∈ (setSend st recips stream).synthesized, a.Err ≠ none) ∧
    (setSend st recips stream).rest = stream.drop recips.length ∧
    ((setSend st recips stream).ret = none ↔
      failedOf (stream.take recips.length) = []) ∧
    (∀ f fs, failedOf (stream.take recips.length) = f :: fs →
      (setSend st recips stream).ret =
        some (appendFailures ("failed to send to: " ++ f) fs)) := by
  have hawait := awaitLoop_spec recips.length none stream hlen
  have hret : (setSend st recips stream).ret =
      (stream.take recips.length).foldl ackFold none := by
    rw [setSend, hawait]
  refine ⟨?_, ?_, ?_, ?_, ?_⟩
  · intro v hv hnone
    exact setSendLoop_synth recips st [] [] v hv hnone
  · intro a ha
    exact setSendLoop_acks_err recips st [] [] (by intro a2 ha2; cases ha2) a ha
  · rw [setSend, hawait]
  · rw [hret, foldl_ackFold_none]
    cases hf : failedOf (stream.take recips.length) with
    | nil => simp
    | cons f fs => simp
  · intro f fs hf
    rw [hret, foldl_ackFold_none, hf]

def stC5 : NodeState := ⟨"a", 0, [], [("a", 1)], [("a", 1)], [], []⟩

theorem setSend_ack_contract_witness :
    (["z"] : List String).length ≤ [AckRec.mk "z" (some (noRouteErr "z"))].length ∧
    AckRec.mk "z" (some (noRouteErr "z")) ∈
      (setSend stC5 ["z"] [AckRec.mk "z" (some (noRouteErr "z"))]).synthesized ∧
    (setSend stC5 ["z"] [AckRec.mk "z" (some (noRouteErr "z"))]).ret =
      some (appendFailures ("failed to send to: " ++ "z") []) :=
  ⟨by decide,
   (setSend_ack_contract stC5 ["z"] [AckRec.mk "z" (some (noRouteErr "z"))]
      (by decide)).1 "z" (by decide) (by decide),
   (setSend_ack_contract stC5 ["z"] [AckRec.mk "z" (some (noRouteErr "z"))]
      (by decide)).2.2.2.2 "z" [] (by decide)⟩

def stC3 : NodeState := ⟨"a", 0, [("a", ["b"])], [("a", 1)], [("a", 1)], [], []⟩

/-- C3 counterexample: with local mesh `{a: [b]}`, an empty client registry
and fragment `{b: [a]}`, the first union merges the fragment and then, since
`b` is not a registered client, applies the correcting intersection that
empties and removes both rows, leaving the mesh empty; the second union
merges the fragment again but now the local row is absent, so no correction
fires and `b` keeps the row `[a]`.  Applying the union twice therefore does
not yield the same adjacency map as applying it once. -/
theorem union_not_idempotent :
    mlookup (union (union stC3 [("b", ["a"])]) [("b", ["a"])]).mesh "b" ≠
      mlookup (union stC3 [("b", ["a"])]).mesh "b" := by
  decide

theorem correctionMesh_nil (n : String) (row : List String)
    (clients : List (String × Nat))
    (h : ∀ v ∈ row, (mlookup clients v).isSome = true) :
    correctionMesh n row clients = [] := by
  rw [correctionMesh]
  have hgen : ∀ (row2 : List String) (im : List (String × List String)),
      (∀ v ∈ row2, (mlookup clients v).isSome = true) →
      row2.foldl (correctionStep n clients) im = im := by
    intro row2
    induction row2 with
    | nil => intro im _; rfl
    | cons v t ih =>
      intro im h2
      rw [List.foldl_cons, correctionStep, if_pos (h2 v (List.mem_cons_self _ _))]
      exact ih im (fun v2 hv2 => h2 v2 (List.mem_cons_of_mem _ hv2))
  exact hgen row [] h

theorem union_no_conflict (st : NodeState) (m : List (String × List String))
    (h : ∀ v ∈ mlookupD (unionMerge st.mesh m) st.name [],
      (mlookup st.clients v).isSome = true) :
    union st m = { st with mesh := unionMerge st.mesh m } := by
  rw [union, if_pos (correctionMesh_nil _ _ _ h)]

/-- C3 (amended): the union operation is idempotent on the adjacency map
whenever the merged local row raises no registry discrepancy — i.e. every
neighbor the merged mesh lists for the local node is a registered client, so
the correcting intersection does not fire.  (When a discrepancy exists the
correction removes rows that a second application of the same fragment
recreates, and `union_not_idempotent` exhibits such a counterexample.) -/
theorem union_idempotent_no_conflict (st : NodeState)
    (m : List (String × List String))
    (h : ∀ v ∈ mlookupD (unionMerge st.mesh m) st.name [],
      (mlookup st.clients v).isSome = true)
    (k : String) :
    mlookup (union (union st m) m).mesh k = mlookup (union st m).mesh k := by
  have hu1 : union st m = { st with mesh := unionMerge st.mesh m } :=
    union_no_conflict st m h
  have h2 : ∀ v ∈ mlookupD
      (unionMerge ({ st with mesh := unionMerge st.mesh m } : NodeState).mesh m)
      ({ st with mesh := unionMerge st.mesh m } : NodeState).name [],
      (mlookup ({ st with mesh := unionMerge st.mesh m } : NodeState).clients v).isSome
        = true := by
    intro v hv
    rcases (mem_mlookupD_unionMerge (unionMerge st.mesh m) m st.name v).1 hv
      with h1 | ⟨vs, hvs, hx⟩
    · exact h v h1
    · exact h v ((mem_mlookupD_unionMerge st.mesh m st.name v).2
        (Or.inr ⟨vs, hvs, hx⟩))
  have hu2 : union ({ st with mesh := unionMerge st.mesh m } : NodeState) m =
      { st with mesh := unionMerge (unionMerge st.mesh m) m } :=
    union_no_conflict _ m h2
  rw [hu1, hu2]
  show mlookup (unionMerge (unionMerge st.mesh m) m) k =
    mlookup (unionMerge st.mesh m) k
  by_cases hk : k ∈ keys m
  · obtain ⟨l2, hl2⟩ := Option.isSome_iff_exists.1
      (mlookup_unionMerge_isSome (unionMerge st.mesh m) m k hk)
    obtain ⟨l1, hl1⟩ := Option.isSome_iff_exists.1
      (mlookup_unionMerge_isSome st.mesh m k hk)
    have hD1 : mlookupD (unionMerge st.mesh m) k [] = l1 := by
      rw [mlookupD, hl1]
      rfl
    have hp2 := mlookup_unionMerge_pairwise (unionMerge st.mesh m) m k hk l2 hl2
    have hp1 := mlookup_unionMerge_pairwise st.mesh m k hk l1 hl1
    have hmem : ∀ x, x ∈ l2 ↔ x ∈ l1 := by
      intro x
      have e2 : x ∈ l2 ↔ x ∈ mlookupD (unionMerge (unionMerge st.mesh m) m) k [] := by
        rw [mlookupD, hl2]
        exact Iff.rfl
      rw [e2, mem_mlookupD_unionMerge]
      constructor
      · rintro (h1 | ⟨vs, hvs, hx⟩)
        · rw [hD1] at h1
          exact h1
        · have hm1 := (mem_mlookupD_unionMerge st.mesh m k x).2 (Or.inr ⟨vs, hvs, hx⟩)
          rw [hD1] at hm1
          exact hm1
      · intro h1
        left
        rw [hD1]
        exact h1
    rw [hl2, hl1, eq_of_pairwise_lt l2 l1 hp2 hp1 hmem]
  · rw [mlookup_unionMerge_not_mem _ _ _ hk]

def stC3w : NodeState := ⟨"a", 0, [], [("a", 1)], [("a", 1)], [], [("b", 5)]⟩

theorem union_idempotent_no_conflict_witness :
    (∀ v ∈ mlookupD (unionMerge stC3w.mesh [("a", ["b"]), ("b", ["a"])]) stC3w.name [],
      (mlookup stC3w.clients v).isSome = true) ∧
    mlookup (union (union stC3w [("a", ["b"]), ("b", ["a"])])
      [("a", ["b"]), ("b", ["a"])]).mesh "b" =
      mlookup (union stC3w [("a", ["b"]), ("b", ["a"])]).mesh "b" :=
  ⟨by decide,
   union_idempotent_no_conflict stC3w [("a", ["b"]), ("b", ["a"])] (by decide) "b"⟩

end Meshage
